import Mathlib

/-!
# Verification of the rkyv archived SwissTable hash map and arena cache

This file gives a shallow embedding of the archived hash map facade
(`src/rkyv/src/collections/swiss_table/map.rs`) and the builtin arena cache
(`src/rkyv/src/util/alloc/mod.rs`), together with proofs of the spec's
testable properties.

The underlying `ArchivedHashTable` (probing, capacity sizing, raw iteration,
from `swiss_table/table.rs`) and the `Arena` allocator
(`ser/allocator`) are not part of the provided sources; they are modelled
from the specification (open addressing with a deterministic probe sequence,
bucket = hash mod capacity, placement probes to the first empty slot, lookup
probes until a match, an empty slot, or `capacity` attempts; capacity is the
least value with `capacity * num >= len * den`, floored at 1 for nonempty
tables).  Definitions taken from `map.rs` and `alloc/mod.rs` follow the
source directly.
-/

set_option autoImplicit false

namespace Rkyv

/-- Modelled from the spec: the archived hash table layout (`ArchivedHashTable`
in `swiss_table/table.rs`, not in the provided sources).  `slots` is the slot
array together with the control metadata: `none` is an empty slot, `some e` an
occupied slot holding entry `e`.  `capacity` is the slot count, `len` the
stored length header field.  The map facade stores an `Entry<K, V>` (a
key-value pair) per slot. -/
structure ArchivedHashMap (K V : Type) where
  len : Nat
  slots : List (Option (K × V))

variable {K V T : Type}

/-! ## Definitions -/

/-- `capacity()`: the total number of slots (`map.rs` line 158 delegates to the
table; in the layout the control array has exactly `capacity` entries). -/
def ArchivedHashMap.capacity (m : ArchivedHashMap K V) : Nat :=
  m.slots.length

/-- Modelled from the spec: capacity sizing policy of
`ArchivedHashTable::serialize_from_iter` — "given `length` items and load
factor `(num, den)`, capacity is the smallest value satisfying
`capacity * num ≥ length * den`, with a floor of 1 when length > 0". -/
def capacity_from_len (len : Nat) (load_factor : Nat × Nat) : Nat :=
  if len = 0 then 0
  else max ((len * load_factor.2 + load_factor.1 - 1) / load_factor.1) 1

/-- Modelled from the spec: the deterministic probe sequence over a table of
`cap` slots for a key hashing to `h`: bucket `h % cap` first, then the
successive candidate buckets, `cap` probes in all (the same sequence is used
for placement and for lookup). -/
def probeSeq (cap h : Nat) : List Nat :=
  (List.range cap).map fun t => (h + t) % cap

/-- Modelled from the spec: lookup probing (`ArchivedHashTable::get_with`).
Walks candidate buckets in order; returns the first occupied entry satisfying
the predicate, stops with `none` at the first empty slot, and gives up with
`none` when the candidate list (of length `capacity`) is exhausted. -/
def lookupIdx (slots : List (Option (K × V))) (p : K × V → Bool) :
    List Nat → Option (K × V)
  | [] => none
  | i :: rest =>
    match slots[i]? with
    | none => none
    | some none => none
    | some (some e) => if p e then some e else lookupIdx slots p rest

/-- Modelled from the spec: placement probing — find the first empty slot in
probe order (placement "continues until an empty slot is found"). -/
def findEmptyIdx (slots : List (Option (K × V))) : List Nat → Option Nat
  | [] => none
  | i :: rest =>
    match slots[i]? with
    | none => none
    | some none => some i
    | some (some _) => findEmptyIdx slots rest

/-- Modelled from the spec: place one entry during construction: probe for the
first empty slot for the entry's hash and write the entry there.  (A full
table leaves the slots unchanged; construction sizes capacity so that this
never happens.) -/
def placeEntry (hash : K → Nat) (slots : List (Option (K × V))) (e : K × V) :
    List (Option (K × V)) :=
  match findEmptyIdx slots (probeSeq slots.length (hash e.1)) with
  | some i => slots.set i (some e)
  | none => slots

/-- Modelled from the spec: the two-phase construction
(`serialize_from_iter` + `resolve_from_len`), collapsed into its observable
result: compute `capacity` from the length and load factor, then place every
key-value pair, in iterator order, into its probed bucket; write the item
count into the `len` header field. -/
def buildMap (hash : K → Nat) (pairs : List (K × V)) (load_factor : Nat × Nat) :
    ArchivedHashMap K V where
  len := pairs.length
  slots :=
    pairs.foldl (placeEntry hash)
      (List.replicate (capacity_from_len pairs.length load_factor) none)

/-- `ArchivedHashMap::get_key_value_with` (`map.rs` lines 31-39): probe with
the key's hash, comparing candidate entries' keys with `cmp`. -/
def ArchivedHashMap.get_key_value_with (m : ArchivedHashMap K V)
    (hash : K → Nat) (q : K) (cmp : K → K → Bool) : Option (K × V) :=
  lookupIdx m.slots (fun e => cmp q e.1) (probeSeq m.capacity (hash q))

/-- `ArchivedHashMap::get_key_value` (`map.rs` lines 43-49): compare keys by
equality. -/
def ArchivedHashMap.get_key_value [DecidableEq K] (m : ArchivedHashMap K V)
    (hash : K → Nat) (q : K) : Option (K × V) :=
  m.get_key_value_with hash q fun a b => a = b

/-- `ArchivedHashMap::get_with` (`map.rs` lines 54-60). -/
def ArchivedHashMap.get_with (m : ArchivedHashMap K V)
    (hash : K → Nat) (q : K) (cmp : K → K → Bool) : Option V :=
  (m.get_key_value_with hash q cmp).map Prod.snd

/-- `ArchivedHashMap::get` (`map.rs` lines 64-70). -/
def ArchivedHashMap.get [DecidableEq K] (m : ArchivedHashMap K V)
    (hash : K → Nat) (q : K) : Option V :=
  (m.get_key_value hash q).map Prod.snd

/-- `ArchivedHashMap::contains_key` (`map.rs` lines 136-142). -/
def ArchivedHashMap.contains_key [DecidableEq K] (m : ArchivedHashMap K V)
    (hash : K → Nat) (q : K) : Bool :=
  (m.get hash q).isSome

/-- `ArchivedHashMap::len` (`map.rs` line 152): reads the stored length
header field. -/
def ArchivedHashMap.length (m : ArchivedHashMap K V) : Nat :=
  m.len

/-- `ArchivedHashMap::is_empty` (`map.rs` line 146). -/
def ArchivedHashMap.is_empty (m : ArchivedHashMap K V) : Bool :=
  m.len == 0

/-- The entries stored in a slot array, in ascending bucket order. -/
def entries (slots : List (Option (K × V))) : List (K × V) :=
  slots.filterMap id

/-- The number of occupied slots. -/
def numOccupied (slots : List (Option (K × V))) : Nat :=
  (entries slots).length

/-- The structural invariant maintained by construction: every occupied slot
sits at a bucket reachable along its key's probe sequence with every earlier
candidate bucket occupied (spec §3: "the slot's bucket index equals the
deterministic probe outcome for that Entry's key hash"). -/
def ProbeInv (hash : K → Nat) (slots : List (Option (K × V))) : Prop :=
  ∀ j e, slots[j]? = some (some e) →
    ∃ l₁ l₂, probeSeq slots.length (hash e.1) = l₁ ++ j :: l₂ ∧
      ∀ i ∈ l₁, ∃ e', slots[i]? = some (some e')

/-- The set of admissible capacities for `len` items at load factor
`(num, den)`: `capacity * num ≥ len * den`, and `capacity ≥ 1` whenever
`len ≥ 1`. -/
def CapacityAdmissible (len : Nat) (lf : Nat × Nat) (c : Nat) : Prop :=
  len * lf.2 ≤ c * lf.1 ∧ (1 ≤ len → 1 ≤ c)

/-- `e` is the first entry in probe order for hash `h` that satisfies `p`:
some candidate bucket `j` holds `e`, and every earlier candidate bucket holds
an entry failing `p` (in particular none of them is empty). -/
def IsFirstMatch (slots : List (Option (K × V))) (p : K × V → Bool) (h : Nat)
    (e : K × V) : Prop :=
  p e = true ∧ ∃ j l₁ l₂, probeSeq slots.length h = l₁ ++ j :: l₂ ∧
    slots[j]? = some (some e) ∧
    ∀ i ∈ l₁, ∃ e', slots[i]? = some (some e') ∧ p e' = false

/-- Modelled from the spec: the raw iteration cursor (`RawIter` in
`swiss_table/table.rs`): a finite sequence of (bucket index, entry) pairs
over the occupied slots in ascending bucket-index order, starting the scan at
bucket `i`. -/
def rawIterFrom : Nat → List (Option (K × V)) → List (Nat × (K × V))
  | _, [] => []
  | i, none :: rest => rawIterFrom (i + 1) rest
  | i, some e :: rest => (i, e) :: rawIterFrom (i + 1) rest

/-- One full iteration of `ArchivedHashMap::iter` (`map.rs` lines 164-169 and
the `Iterator` impl at lines 295-312): bucket indices paired with the entries
they hold. -/
def ArchivedHashMap.rawIter (m : ArchivedHashMap K V) : List (Nat × (K × V)) :=
  rawIterFrom 0 m.slots

/-- The key-value sequence yielded by one full iteration. -/
def ArchivedHashMap.iterList (m : ArchivedHashMap K V) : List (K × V) :=
  m.rawIter.map Prod.snd

/-- `PartialEq::eq` for `ArchivedHashMap` (`map.rs` lines 260-271):
`if self.len() != other.len() { false } else { self.iter().all(|(key, value)|
other.get(key).map_or(false, |v| *value == *v)) }`. -/
def ArchivedHashMap.beq [DecidableEq K] [DecidableEq V]
    (a b : ArchivedHashMap K V) (hash : K → Nat) : Bool :=
  if a.length ≠ b.length then false
  else a.iterList.all fun kv =>
    ((b.get hash kv.1).map fun v => decide (kv.2 = v)).getD false

/-- `Index::index` (`map.rs` lines 273-284): `self.get(key).unwrap()`.  The
panic of `unwrap` on a missing key is modelled as `Except.error ()`; a
successful lookup returns the same value `get` returns. -/
def ArchivedHashMap.index [DecidableEq K] (m : ArchivedHashMap K V)
    (hash : K → Nat) (q : K) : Except Unit V :=
  match m.get hash q with
  | some v => Except.ok v
  | none => Except.error ()

/-- Modelled from the spec: the slot index found by the mutable lookup path.
`ArchivedHashTable::get_with_mut` probes exactly like `get_with`
(`map.rs` lines 75-92 route both through the same comparator and hash). -/
def lookupPos (slots : List (Option (K × V))) (p : K × V → Bool) :
    List Nat → Option Nat
  | [] => none
  | i :: rest =>
    match slots[i]? with
    | none => none
    | some none => none
    | some (some e) => if p e then some i else lookupPos slots p rest

/-- Writing a new value through the mutable-access path
(`get_mut` / `get_key_value_mut` / `values_mut`): the probe finds a slot, and
only the value component of that slot's entry is replaced — the key portion
is not exposed for mutation (`map.rs` lines 75-92 return
`(&K, Pin<&mut V>)`). -/
def ArchivedHashMap.set_value_mut [DecidableEq K] (m : ArchivedHashMap K V)
    (hash : K → Nat) (q : K) (newv : V) : ArchivedHashMap K V :=
  match lookupPos m.slots (fun e => decide (q = e.1))
      (probeSeq m.capacity (hash q)) with
  | some i =>
    match m.slots[i]? with
    | some (some e) => ⟨m.len, m.slots.set i (some (e.1, newv))⟩
    | _ => m
  | none => m

/-- Occupancy and keys coincide slotwise between two slot arrays. -/
def SameKeys (slots₁ slots₂ : List (Option (K × V))) : Prop :=
  ∀ i : Nat, (slots₁[i]?).map (Option.map Prod.fst) =
    (slots₂[i]?).map (Option.map Prod.fst)

/-- Modelled from the spec: the `Arena` bump allocator (`ser/allocator`, not
in the provided sources).  Only the observable quantities read by the cache
wrappers are modelled: the retained `capacity` and the recent usage
high-water mark `used`. -/
structure Arena where
  capacity : Nat
  used : Nat

/-- Modelled from the spec: a fresh arena (`Arena::new` /
`Arena::default`). -/
def Arena.new : Arena := ⟨0, 0⟩

/-- Modelled from the spec: `Arena::shrink` "shrinks the arena's retained
capacity to fit recent usage" and returns the new capacity (the std cache
wrapper reads that return value). -/
def Arena.shrink (a : Arena) : Arena × Nat :=
  (⟨a.used, a.used⟩, a.used)

/-- `arena::with_arena` (std variant, `alloc/mod.rs` lines 27-43), as a state
transformer on the thread-local cell.  The call takes the cached arena out of
the cell (or makes a fresh one), hands it to `f` exactly once, shrinks it,
then takes the cell again: `cellAfter` is what that second `take` observes
(non-`none` only if `f` itself re-entered the cache); the source keeps
whichever of the two arenas retains more capacity and stores it back. -/
def with_arena_std (cell : Option Arena) (cellAfter : Option Arena)
    (f : Arena → T × Arena) : T × Option Arena :=
  let arena0 := cell.getD Arena.new
  let fr := f arena0
  let sh := fr.2.shrink
  let kept :=
    match cellAfter with
    | some other => if sh.2 < other.capacity then other else sh.1
    | none => sh.1
  (fr.1, some kept)

/-- `arena::with_arena` (no_std variant, `alloc/mod.rs` lines 62-91): swap
the global slot to null, run `f` on the taken (or fresh) arena, shrink, then
publish the arena back with a compare-exchange.  `interference` is the slot
content at CAS time: `none` means the slot is still null and the CAS
succeeds; `some other` means another caller published `other` first, so the
CAS fails and this arena is dropped. -/
def with_arena_no_std (global : Option Arena) (interference : Option Arena)
    (f : Arena → T × Arena) : T × Option Arena :=
  let arena0 := global.getD Arena.new
  let fr := f arena0
  let sh := fr.2.shrink
  match interference with
  | none => (fr.1, some sh.1)
  | some other => (fr.1, some other)

/-- `arena::clear_arena` (std variant, `alloc/mod.rs` lines 45-48, and
no_std variant, lines 93-102): swap the cache slot to empty; whatever arena
was cached is dropped (returned here as the list of freed arenas). -/
def clear_arena (cache : Option Arena) : Option Arena × List Arena :=
  match cache with
  | some a => (none, [a])
  | none => (none, [])

/-! ## Probe sequence facts -/

theorem probeSeq_length (cap h : Nat) : (probeSeq cap h).length = cap := by
  simp [probeSeq]

theorem probeSeq_mem_lt (cap h : Nat) {i : Nat} (hi : i ∈ probeSeq cap h)
    (hcap : 0 < cap) : i < cap := by
  simp only [probeSeq, List.mem_map, List.mem_range] at hi
  obtain ⟨t, -, rfl⟩ := hi
  exact Nat.mod_lt _ hcap

theorem probeSeq_nodup (cap h : Nat) : (probeSeq cap h).Nodup := by
  rcases Nat.eq_zero_or_pos cap with rfl | hcap
  · simp [probeSeq]
  · refine List.Nodup.map_on ?_ (List.nodup_range cap)
    intro t₁ ht₁ t₂ ht₂ heq
    simp only [List.mem_range] at ht₁ ht₂
    have hmod : t₁ % cap = t₂ % cap :=
      (Nat.ModEq.add_left_cancel' h heq)
    rwa [Nat.mod_eq_of_lt ht₁, Nat.mod_eq_of_lt ht₂] at hmod

theorem mem_probeSeq (cap h : Nat) (hcap : 0 < cap) {i : Nat} (hi : i < cap) :
    i ∈ probeSeq cap h := by
  simp only [probeSeq, List.mem_map, List.mem_range]
  refine ⟨(cap + i - h % cap) % cap, Nat.mod_lt _ hcap, ?_⟩
  have hr : h % cap ≤ cap + i :=
    le_trans (Nat.le_of_lt (Nat.mod_lt _ hcap)) (Nat.le_add_right _ _)
  have key : h + (cap + i - h % cap) % cap ≡ i [MOD cap] := by
    calc h + (cap + i - h % cap) % cap
        ≡ h % cap + (cap + i - h % cap) [MOD cap] :=
          Nat.ModEq.add (Nat.mod_modEq h cap).symm (Nat.mod_modEq _ cap)
      _ = cap + i := Nat.add_sub_cancel' hr
      _ ≡ i [MOD cap] := by
          show (cap + i) % cap = i % cap
          exact Nat.add_mod_left cap i
  have h2 : (h + (cap + i - h % cap) % cap) % cap = i % cap := key
  rwa [Nat.mod_eq_of_lt hi] at h2

/-! ## Slot array facts -/

theorem lookupIdx_eq_some {slots : List (Option (K × V))} {p : K × V → Bool}
    {l : List Nat} {e : K × V} (h : lookupIdx slots p l = some e) :
    p e = true ∧ ∃ j l₁ l₂, l = l₁ ++ j :: l₂ ∧ slots[j]? = some (some e) ∧
      ∀ i ∈ l₁, ∃ e', slots[i]? = some (some e') ∧ p e' = false := by
  induction l with
  | nil => simp [lookupIdx] at h
  | cons i rest ih =>
    rw [lookupIdx] at h
    split at h
    · exact absurd h (by simp)
    · exact absurd h (by simp)
    · rename_i e' hs
      split at h
      · rename_i hp
        obtain rfl : e' = e := Option.some.inj h
        exact ⟨hp, i, [], rest, rfl, hs, by simp⟩
      · rename_i hp
        obtain ⟨hpe, j, l₁, l₂, rfl, hj, hpre⟩ := ih h
        refine ⟨hpe, j, i :: l₁, l₂, rfl, hj, ?_⟩
        intro x hx
        rcases List.mem_cons.1 hx with rfl | hx
        · exact ⟨e', hs, by simpa using hp⟩
        · exact hpre x hx

theorem lookupIdx_hit {slots : List (Option (K × V))} {p : K × V → Bool}
    {l₁ l₂ : List Nat} {j : Nat} {e : K × V}
    (hpre : ∀ i ∈ l₁, ∃ e', slots[i]? = some (some e') ∧ p e' = false)
    (hj : slots[j]? = some (some e)) (hp : p e = true) :
    lookupIdx slots p (l₁ ++ j :: l₂) = some e := by
  induction l₁ with
  | nil => simp [lookupIdx, hj, hp]
  | cons i rest ih =>
    obtain ⟨e', hs, hpe'⟩ := hpre i (List.mem_cons_self i rest)
    rw [List.cons_append, lookupIdx, hs]
    simp only [hpe', Bool.false_eq_true, if_false]
    exact ih fun x hx => hpre x (List.mem_cons_of_mem _ hx)

theorem lookupIdx_hit_weak {slots : List (Option (K × V))} {p : K × V → Bool}
    {l₁ l₂ : List Nat} {j : Nat} {e : K × V}
    (hpre : ∀ i ∈ l₁, ∃ e', slots[i]? = some (some e'))
    (hj : slots[j]? = some (some e)) (hp : p e = true) :
    ∃ e', lookupIdx slots p (l₁ ++ j :: l₂) = some e' ∧ p e' = true := by
  induction l₁ with
  | nil => exact ⟨e, by simp [lookupIdx, hj, hp], hp⟩
  | cons i rest ih =>
    obtain ⟨e', hs⟩ := hpre i (List.mem_cons_self i rest)
    rw [List.cons_append, lookupIdx, hs]
    by_cases hpe' : p e'
    · exact ⟨e', by simp [hpe'], hpe'⟩
    · simp only [hpe', Bool.false_eq_true, if_false]
      exact ih fun x hx => hpre x (List.mem_cons_of_mem _ hx)

theorem findEmptyIdx_eq_some {slots : List (Option (K × V))} {l : List Nat}
    {j : Nat} (h : findEmptyIdx slots l = some j) :
    slots[j]? = some none ∧ ∃ l₁ l₂, l = l₁ ++ j :: l₂ ∧
      ∀ i ∈ l₁, ∃ e', slots[i]? = some (some e') := by
  induction l with
  | nil => simp [findEmptyIdx] at h
  | cons i rest ih =>
    rw [findEmptyIdx] at h
    split at h
    · exact absurd h (by simp)
    · rename_i hs
      obtain rfl : i = j := Option.some.inj h
      exact ⟨hs, [], rest, rfl, by simp⟩
    · rename_i e' hs
      obtain ⟨hj, l₁, l₂, rfl, hpre⟩ := ih h
      refine ⟨hj, i :: l₁, l₂, rfl, ?_⟩
      intro x hx
      rcases List.mem_cons.1 hx with rfl | hx
      · exact ⟨e', hs⟩
      · exact hpre x hx

theorem findEmptyIdx_isSome {slots : List (Option (K × V))} {l : List Nat}
    (hlt : ∀ i ∈ l, i < slots.length)
    (hex : ∃ i ∈ l, slots[i]? = some none) :
    (findEmptyIdx slots l).isSome := by
  induction l with
  | nil => simp at hex
  | cons i rest ih =>
    rw [findEmptyIdx]
    have hi : i < slots.length := hlt i (List.mem_cons_self i rest)
    cases hs : slots[i]? with
    | none => exact absurd hs (by simp [List.getElem?_eq_getElem hi])
    | some o =>
      cases o with
      | none => simp
      | some e =>
        simp only
        refine ih (fun x hx => hlt x (List.mem_cons_of_mem _ hx)) ?_
        obtain ⟨i₀, hi₀, hemp⟩ := hex
        rcases List.mem_cons.1 hi₀ with rfl | hi₀
        · rw [hs] at hemp; exact absurd hemp (by simp)
        · exact ⟨i₀, hi₀, hemp⟩

theorem numOccupied_lt_exists_empty {slots : List (Option (K × V))}
    (h : numOccupied slots < slots.length) :
    ∃ i, i < slots.length ∧ slots[i]? = some none := by
  induction slots with
  | nil => simp [numOccupied, entries] at h
  | cons o rest ih =>
    cases o with
    | none => exact ⟨0, by simp, by simp⟩
    | some e =>
      have h' : numOccupied rest < rest.length := by
        simpa [numOccupied, entries] using h
      obtain ⟨i, hi, hemp⟩ := ih h'
      exact ⟨i + 1, by simpa using hi, by simpa using hemp⟩

theorem entries_set_perm {slots : List (Option (K × V))} {i : Nat} {e : K × V}
    (h : slots[i]? = some none) :
    (entries (slots.set i (some e))).Perm (e :: entries slots) := by
  induction slots generalizing i with
  | nil => simp at h
  | cons o rest ih =>
    cases i with
    | zero =>
      obtain rfl : o = none := by simpa using h
      simp [entries]
    | succ i =>
      have h' : rest[i]? = some none := by simpa using h
      have hperm := ih h'
      rw [List.set_cons_succ]
      cases o with
      | none => simpa [entries] using hperm
      | some e' =>
        have : entries (some e' :: rest.set i (some e)) =
            e' :: entries (rest.set i (some e)) := by simp [entries]
        rw [this]
        have : entries (some e' :: rest) = e' :: entries rest := by simp [entries]
        rw [this]
        exact (hperm.cons e').trans (List.Perm.swap e e' _)

theorem stored_inj {slots : List (Option (K × V))}
    (hnd : (entries slots).Nodup) {i j : Nat} {e : K × V}
    (hi : slots[i]? = some (some e)) (hj : slots[j]? = some (some e)) :
    i = j := by
  induction slots generalizing i j with
  | nil => simp at hi
  | cons o rest ih =>
    have hmem_tail : ∀ {n : Nat}, rest[n]? = some (some e) → e ∈ entries rest := by
      intro n hn
      have : some e ∈ rest := List.getElem?_mem hn
      exact List.mem_filterMap.2 ⟨some e, this, rfl⟩
    cases i with
    | zero =>
      obtain rfl : o = some e := by simpa using hi
      cases j with
      | zero => rfl
      | succ j =>
        have hj' : rest[j]? = some (some e) := by simpa using hj
        have hnd' : ¬ e ∈ entries rest := by
          have : entries (some e :: rest) = e :: entries rest := by simp [entries]
          rw [this] at hnd
          exact (List.nodup_cons.1 hnd).1
        exact absurd (hmem_tail hj') hnd'
    | succ i =>
      have hi' : rest[i]? = some (some e) := by simpa using hi
      cases j with
      | zero =>
        obtain rfl : o = some e := by simpa using hj
        have hnd' : ¬ e ∈ entries rest := by
          have : entries (some e :: rest) = e :: entries rest := by simp [entries]
          rw [this] at hnd
          exact (List.nodup_cons.1 hnd).1
        exact absurd (hmem_tail hi') hnd'
      | succ j =>
        have hj' : rest[j]? = some (some e) := by simpa using hj
        have hnd' : (entries rest).Nodup := by
          cases o with
          | none =>
            have : entries (none :: rest) = entries rest := by simp [entries]
            rwa [this] at hnd
          | some e'' =>
            have : entries (some e'' :: rest) = e'' :: entries rest := by
              simp [entries]
            rw [this] at hnd
            exact (List.nodup_cons.1 hnd).2
        have := ih hnd' hi' hj'
        omega

/-! ## Placement and the probe invariant -/

theorem length_placeEntry (hash : K → Nat) (slots : List (Option (K × V)))
    (e : K × V) : (placeEntry hash slots e).length = slots.length := by
  unfold placeEntry
  split
  · exact List.length_set ..
  · rfl

theorem placeEntry_findEmpty_isSome {hash : K → Nat}
    {slots : List (Option (K × V))} (e : K × V)
    (hroom : numOccupied slots < slots.length) :
    (findEmptyIdx slots (probeSeq slots.length (hash e.1))).isSome := by
  have hpos : 0 < slots.length := Nat.lt_of_le_of_lt (Nat.zero_le _) hroom
  obtain ⟨i, hi, hemp⟩ := numOccupied_lt_exists_empty hroom
  exact findEmptyIdx_isSome
    (fun x hx => probeSeq_mem_lt _ _ hx hpos)
    ⟨i, mem_probeSeq _ _ hpos hi, hemp⟩

theorem entries_placeEntry_perm {hash : K → Nat}
    {slots : List (Option (K × V))} {e : K × V}
    (hroom : numOccupied slots < slots.length) :
    (entries (placeEntry hash slots e)).Perm (e :: entries slots) := by
  obtain ⟨i, hfind⟩ :=
    Option.isSome_iff_exists.1 (placeEntry_findEmpty_isSome e hroom)
  obtain ⟨hemp, -⟩ := findEmptyIdx_eq_some hfind
  unfold placeEntry
  rw [hfind]
  exact entries_set_perm hemp

theorem occupied_set {slots : List (Option (K × V))} {i x : Nat} {e e' : K × V}
    (hx : slots[x]? = some (some e')) :
    ∃ e'', (slots.set i (some e))[x]? = some (some e'') := by
  rcases eq_or_ne i x with rfl | hne
  · have hlt : i < slots.length := by
      by_contra hge
      rw [List.getElem?_eq_none (Nat.le_of_not_lt hge)] at hx
      exact absurd hx (by simp)
    exact ⟨e, by rw [List.getElem?_set_self hlt]⟩
  · exact ⟨e', by rw [List.getElem?_set_ne hne, hx]⟩

theorem probeInv_placeEntry {hash : K → Nat} {slots : List (Option (K × V))}
    (e : K × V) (hinv : ProbeInv hash slots) :
    ProbeInv hash (placeEntry hash slots e) := by
  unfold placeEntry
  cases hfind : findEmptyIdx slots (probeSeq slots.length (hash e.1)) with
  | none => exact hinv
  | some i =>
    obtain ⟨hemp, l₁, l₂, hdec, hpre⟩ := findEmptyIdx_eq_some hfind
    intro j e₀ hj
    rw [List.length_set]
    rcases eq_or_ne i j with rfl | hne
    · have hlt : i < slots.length := by
        by_contra hge
        rw [List.getElem?_eq_none (Nat.le_of_not_lt hge)] at hemp
        exact absurd hemp (by simp)
      rw [List.getElem?_set_self hlt] at hj
      obtain rfl : e = e₀ := by simpa using hj
      refine ⟨l₁, l₂, hdec, ?_⟩
      intro x hx
      obtain ⟨e', he'⟩ := hpre x hx
      exact occupied_set he'
    · rw [List.getElem?_set_ne hne] at hj
      obtain ⟨m₁, m₂, hdec', hpre'⟩ := hinv j e₀ hj
      refine ⟨m₁, m₂, hdec', ?_⟩
      intro x hx
      obtain ⟨e', he'⟩ := hpre' x hx
      exact occupied_set he'

theorem probeSeq_mem_lt' {cap h i : Nat} (hi : i ∈ probeSeq cap h) :
    i < cap := by
  simp only [probeSeq, List.mem_map, List.mem_range] at hi
  obtain ⟨t, ht, rfl⟩ := hi
  exact Nat.mod_lt _ (Nat.lt_of_le_of_lt (Nat.zero_le _) ht)

theorem lookupIdx_eq_none {slots : List (Option (K × V))} {p : K × V → Bool}
    {l : List Nat} (hlt : ∀ i ∈ l, i < slots.length)
    (h : lookupIdx slots p l = none) :
    (∃ j l₁ l₂, l = l₁ ++ j :: l₂ ∧ slots[j]? = some none ∧
        ∀ i ∈ l₁, ∃ e', slots[i]? = some (some e') ∧ p e' = false)
    ∨ (∀ i ∈ l, ∃ e', slots[i]? = some (some e') ∧ p e' = false) := by
  induction l with
  | nil => right; simp
  | cons i rest ih =>
    rw [lookupIdx] at h
    split at h
    · rename_i hs
      have hi := hlt i (List.mem_cons_self i rest)
      rw [List.getElem?_eq_getElem hi] at hs
      exact absurd hs (by simp)
    · rename_i hs
      exact Or.inl ⟨i, [], rest, rfl, hs, by simp⟩
    · rename_i e' hs
      split at h
      · exact absurd h (by simp)
      · rename_i hp
        have hne : p e' = false := by simpa using hp
        rcases ih (fun x hx => hlt x (List.mem_cons_of_mem _ hx)) h with
          ⟨j, l₁, l₂, rfl, hj, hpre⟩ | hall
        · refine Or.inl ⟨j, i :: l₁, l₂, rfl, hj, ?_⟩
          intro x hx
          rcases List.mem_cons.1 hx with rfl | hx
          · exact ⟨e', hs, hne⟩
          · exact hpre x hx
        · refine Or.inr ?_
          intro x hx
          rcases List.mem_cons.1 hx with rfl | hx
          · exact ⟨e', hs, hne⟩
          · exact hall x hx

theorem capacity_from_len_admissible (len : Nat) (num den : Nat)
    (hnum : 1 ≤ num) :
    CapacityAdmissible len (num, den) (capacity_from_len len (num, den)) := by
  unfold CapacityAdmissible capacity_from_len
  by_cases h0 : len = 0
  · simp [h0]
  · simp only [h0, if_false]
    constructor
    · set a := len * den with ha
      have hle : a ≤ ((a + num - 1) / num) * num := by
        have hdm := Nat.div_add_mod (a + num - 1) num
        have hmlt : (a + num - 1) % num < num := Nat.mod_lt _ hnum
        set q := (a + num - 1) / num with hq
        set r := (a + num - 1) % num with hr
        have hq' : num * q + r = a + num - 1 := hdm
        have hnq : a ≤ num * q := by omega
        calc a ≤ num * q := hnq
        _ = q * num := Nat.mul_comm _ _
      calc a ≤ ((a + num - 1) / num) * num := hle
      _ ≤ max ((a + num - 1) / num) 1 * num :=
          Nat.mul_le_mul_right _ (le_max_left _ _)
    · intro _
      exact le_max_right _ _

theorem capacity_from_len_min (len : Nat) (num den : Nat) (hnum : 1 ≤ num)
    (c : Nat) (hc : CapacityAdmissible len (num, den) c) :
    capacity_from_len len (num, den) ≤ c := by
  obtain ⟨hc1, hc2⟩ := hc
  unfold capacity_from_len
  by_cases h0 : len = 0
  · simp [h0]
  · simp only [h0, if_false]
    have hc1' : 1 ≤ c := hc2 (by omega)
    refine max_le ?_ hc1'
    set a := len * den with ha
    have : a + num - 1 < (c + 1) * num := by
      have : a ≤ c * num := hc1
      have : (c + 1) * num = c * num + num := by ring
      omega
    have := Nat.div_lt_iff_lt_mul (by omega : 0 < num) |>.2 this
    omega

/-! ## Construction facts -/

theorem foldl_place_length (hash : K → Nat) (pairs : List (K × V))
    (slots₀ : List (Option (K × V))) :
    (pairs.foldl (placeEntry hash) slots₀).length = slots₀.length := by
  induction pairs generalizing slots₀ with
  | nil => rfl
  | cons e rest ih =>
    rw [List.foldl_cons, ih, length_placeEntry]

theorem foldl_place_entries_perm (hash : K → Nat) (pairs : List (K × V))
    (slots₀ : List (Option (K × V)))
    (hroom : numOccupied slots₀ + pairs.length ≤ slots₀.length) :
    (entries (pairs.foldl (placeEntry hash) slots₀)).Perm
      (pairs ++ entries slots₀) := by
  induction pairs generalizing slots₀ with
  | nil => simp
  | cons e rest ih =>
    rw [List.foldl_cons]
    have hlt : numOccupied slots₀ < slots₀.length := by
      simp only [List.length_cons] at hroom
      omega
    have hperm1 := @entries_placeEntry_perm K V hash slots₀ e hlt
    have hnum : numOccupied (placeEntry hash slots₀ e) =
        numOccupied slots₀ + 1 := by
      have := hperm1.length_eq
      simpa [numOccupied] using this
    have hroom' : numOccupied (placeEntry hash slots₀ e) + rest.length ≤
        (placeEntry hash slots₀ e).length := by
      rw [hnum, length_placeEntry]
      simp only [List.length_cons] at hroom
      omega
    have ihp := ih (placeEntry hash slots₀ e) hroom'
    have h3 : (rest ++ (e :: entries slots₀)).Perm
        (e :: (rest ++ entries slots₀)) := List.perm_middle
    exact ihp.trans ((List.Perm.append_left rest hperm1).trans h3)

theorem foldl_place_probeInv (hash : K → Nat) (pairs : List (K × V))
    (slots₀ : List (Option (K × V))) (hinv : ProbeInv hash slots₀) :
    ProbeInv hash (pairs.foldl (placeEntry hash) slots₀) := by
  induction pairs generalizing slots₀ with
  | nil => exact hinv
  | cons e rest ih =>
    rw [List.foldl_cons]
    exact ih _ (probeInv_placeEntry e hinv)

theorem entries_replicate_none (n : Nat) :
    entries (List.replicate n (none : Option (K × V))) = [] := by
  simp [entries]

theorem probeInv_replicate_none (hash : K → Nat) (n : Nat) :
    ProbeInv hash (List.replicate n (none : Option (K × V))) := by
  intro j e hj
  rw [List.getElem?_replicate] at hj
  split at hj
  · exact absurd hj (by simp)
  · exact absurd hj (by simp)

theorem buildMap_capacity (hash : K → Nat) (pairs : List (K × V))
    (lf : Nat × Nat) :
    (buildMap hash pairs lf).capacity = capacity_from_len pairs.length lf := by
  unfold buildMap ArchivedHashMap.capacity
  simp only
  rw [foldl_place_length, List.length_replicate]

theorem buildMap_len (hash : K → Nat) (pairs : List (K × V)) (lf : Nat × Nat) :
    (buildMap hash pairs lf).len = pairs.length := rfl

theorem length_le_capacity_from_len (len num den : Nat) (hnum : 1 ≤ num)
    (hden : num ≤ den) : len ≤ capacity_from_len len (num, den) := by
  have hadm := (capacity_from_len_admissible len num den hnum).1
  have hmul : len * num ≤ capacity_from_len len (num, den) * num :=
    le_trans (Nat.mul_le_mul_left len hden) hadm
  exact Nat.le_of_mul_le_mul_right hmul hnum

theorem buildMap_entries_perm (hash : K → Nat) (pairs : List (K × V))
    (num den : Nat) (hnum : 1 ≤ num) (hden : num ≤ den) :
    (entries (buildMap hash pairs (num, den)).slots).Perm pairs := by
  unfold buildMap
  simp only
  have hroom : numOccupied
        (List.replicate (capacity_from_len pairs.length (num, den))
          (none : Option (K × V))) + pairs.length ≤
      (List.replicate (capacity_from_len pairs.length (num, den))
        (none : Option (K × V))).length := by
    rw [List.length_replicate]
    have := length_le_capacity_from_len pairs.length num den hnum hden
    simp [numOccupied, entries_replicate_none]
    omega
  have := foldl_place_entries_perm hash pairs _ hroom
  simpa [entries_replicate_none] using this

theorem buildMap_probeInv (hash : K → Nat) (pairs : List (K × V))
    (lf : Nat × Nat) : ProbeInv hash (buildMap hash pairs lf).slots := by
  unfold buildMap
  simp only
  exact foldl_place_probeInv hash pairs _ (probeInv_replicate_none hash _)

/-! ## Lookup characterization -/

theorem get_key_value_with_eq_some_iff (m : ArchivedHashMap K V)
    (hash : K → Nat) (q : K) (cmp : K → K → Bool) (e : K × V) :
    m.get_key_value_with hash q cmp = some e ↔
      IsFirstMatch m.slots (fun e' => cmp q e'.1) (hash q) e := by
  constructor
  · intro h
    obtain ⟨hp, j, l₁, l₂, hdec, hj, hpre⟩ := lookupIdx_eq_some h
    exact ⟨hp, j, l₁, l₂, hdec, hj, hpre⟩
  · rintro ⟨hp, j, l₁, l₂, hdec, hj, hpre⟩
    unfold ArchivedHashMap.get_key_value_with
    rw [show probeSeq m.capacity (hash q) = l₁ ++ j :: l₂ from hdec]
    exact lookupIdx_hit hpre hj hp

/-! ## Claim C2: capacity sizing -/

/-- C2: for every requested length and load factor `(num, den)` with a
positive numerator, the capacity chosen at construction is the smallest value
with `capacity * num ≥ length * den` together with the floor
`capacity ≥ 1` whenever `length ≥ 1`. -/
theorem capacity_is_least (len num den : Nat) (hnum : 1 ≤ num) :
    IsLeast (setOf (CapacityAdmissible len (num, den)))
      (capacity_from_len len (num, den)) := by
  constructor
  · exact capacity_from_len_admissible len num den hnum
  · intro c hc
    exact capacity_from_len_min len num den hnum c hc

/-- Witness for C2 at `len = 5`, load factor `(7, 8)`: the chosen capacity is
6, it is admissible, and it is a lower bound of the admissible set. -/
theorem capacity_is_least_witness :
    1 ≤ 7 ∧ capacity_from_len 5 (7, 8) = 6 ∧
      IsLeast (setOf (CapacityAdmissible 5 (7, 8))) (capacity_from_len 5 (7, 8)) :=
  ⟨by decide, by decide, capacity_is_least 5 7 8 (by decide)⟩

/-! ## Claim C1: round-trip -/

theorem stored_of_mem_entries {slots : List (Option (K × V))} {e : K × V}
    (h : e ∈ entries slots) : ∃ j : Nat, slots[j]? = some (some e) := by
  obtain ⟨o, ho, hoe⟩ := List.mem_filterMap.1 h
  cases o with
  | none => exact absurd hoe (by simp)
  | some e' =>
    obtain rfl : e' = e := by simpa using hoe
    exact List.mem_iff_getElem?.1 ho

theorem mem_entries_of_stored {slots : List (Option (K × V))} {e : K × V}
    {j : Nat} (h : slots[j]? = some (some e)) : e ∈ entries slots :=
  List.mem_filterMap.2 ⟨some e, List.getElem?_mem h, rfl⟩

/-- C1: Round-trip.  For every finite sequence of key/value pairs with
pairwise-distinct keys and every load factor `(num, den)` with
`1 ≤ num ≤ den`, building the archived map (the observable result of
`serialize_from_iter` followed by `resolve_from_len`) and then calling `get`
on any key of the sequence returns that key's associated value, and calling
`get` on any key not in the sequence returns `none`. -/
theorem build_get_roundtrip [DecidableEq K] (hash : K → Nat)
    (pairs : List (K × V)) (num den : Nat)
    (hnum : 1 ≤ num) (hden : num ≤ den)
    (hnd : (pairs.map Prod.fst).Nodup) :
    (∀ kv ∈ pairs,
        (buildMap hash pairs (num, den)).get hash kv.1 = some kv.2) ∧
    (∀ q, q ∉ pairs.map Prod.fst →
        (buildMap hash pairs (num, den)).get hash q = none) := by
  set m := buildMap hash pairs (num, den) with hm
  have hperm := buildMap_entries_perm hash pairs num den hnum hden
  have hinv := buildMap_probeInv hash pairs (num, den)
  have hndp : pairs.Nodup := List.Nodup.of_map _ hnd
  have hnde : (entries m.slots).Nodup := hperm.nodup_iff.2 hndp
  constructor
  · rintro ⟨k, v⟩ hkv
    have hmem : (k, v) ∈ entries m.slots := hperm.mem_iff.2 hkv
    obtain ⟨j, hj⟩ := stored_of_mem_entries hmem
    obtain ⟨l₁, l₂, hdec, hpre⟩ := hinv j (k, v) hj
    have hjnotin : j ∉ l₁ := by
      have hnodup := probeSeq_nodup m.slots.length (hash k)
      rw [hdec] at hnodup
      intro hmem'
      have hdisj := (List.nodup_append.1 hnodup).2.2
      exact hdisj hmem' (List.mem_cons_self j l₂)
    have hpre' : ∀ i ∈ l₁, ∃ e', m.slots[i]? = some (some e') ∧
        (decide (k = e'.1)) = false := by
      intro i hi
      obtain ⟨e', he'⟩ := hpre i hi
      refine ⟨e', he', ?_⟩
      by_contra hne
      have hkeq : k = e'.1 := of_decide_eq_true (by
        cases hd : decide (k = e'.1)
        · exact absurd hd hne
        · rfl)
      have hmem'' : e' ∈ pairs := hperm.mem_iff.1 (mem_entries_of_stored he')
      have : e' = (k, v) :=
        List.inj_on_of_nodup_map hnd hmem'' hkv (by rw [← hkeq])
      subst this
      exact hjnotin (stored_inj hnde he' hj ▸ hi)
    have hfirst : IsFirstMatch m.slots (fun e' => decide (k = e'.1))
        (hash k) (k, v) :=
      ⟨by simp, j, l₁, l₂, hdec, hj, hpre'⟩
    have hgkv : m.get_key_value_with hash k (fun a b => decide (a = b)) =
        some (k, v) :=
      (get_key_value_with_eq_some_iff m hash k _ (k, v)).2 hfirst
    show (m.get_key_value hash k).map Prod.snd = some v
    rw [show m.get_key_value hash k =
        m.get_key_value_with hash k (fun a b => decide (a = b)) from rfl, hgkv]
    rfl
  · intro q hq
    cases hres : m.get_key_value hash q with
    | none =>
      show (m.get_key_value hash q).map Prod.snd = none
      rw [hres]; rfl
    | some e =>
      exfalso
      obtain ⟨hp, j, l₁, l₂, hdec, hj, -⟩ := lookupIdx_eq_some hres
      have hqe : q = e.1 := of_decide_eq_true hp
      have : e ∈ pairs := hperm.mem_iff.1 (mem_entries_of_stored hj)
      exact hq (hqe ▸ List.mem_map_of_mem Prod.fst this)

/-- Witness for C1: pairs `[(10, 1), (20, 2), (30, 3)]`, hash = identity,
load factor `(7, 8)`; looking up each present key returns its value, and a
lookup of the absent key `99` misses. -/
theorem build_get_roundtrip_witness :
    (1 ≤ 7 ∧ 7 ≤ 8 ∧
        (([(10, 1), (20, 2), (30, 3)] : List (Nat × Nat)).map
          Prod.fst).Nodup) ∧
      (buildMap id [(10, 1), (20, 2), (30, 3)] (7, 8)).get id 20 = some 2 ∧
      (buildMap id [(10, 1), (20, 2), (30, 3)] (7, 8)).get id 99 = none := by
  refine ⟨⟨by decide, by decide, by decide⟩, ?_, ?_⟩
  · exact (build_get_roundtrip id [(10, 1), (20, 2), (30, 3)] 7 8
      (by decide) (by decide) (by decide)).1 (20, 2) (by decide)
  · exact (build_get_roundtrip id [(10, 1), (20, 2), (30, 3)] 7 8
      (by decide) (by decide) (by decide)).2 99 (by decide)

/-! ## Claim C7: duplicate-key determinism -/

/-- C7: Duplicate-key determinism.  Building a map from a sequence that
contains a repeated key and looking that key up yields one specific entry:
the first matching entry in probe order (`IsFirstMatch`), a deterministic
function of the construction order and the probing rule.  Lookup itself is a
pure function of the archived bytes and the key, so every repeated lookup on
the same bytes returns this same entry. -/
theorem duplicate_key_lookup [DecidableEq K] (hash : K → Nat)
    (pairs : List (K × V)) (num den : Nat) (k : K)
    (hnum : 1 ≤ num) (hden : num ≤ den)
    (hdup : 2 ≤ (pairs.map Prod.fst).count k) :
    ∃ e, (buildMap hash pairs (num, den)).get_key_value hash k = some e ∧
      e.1 = k ∧
      IsFirstMatch (buildMap hash pairs (num, den)).slots
        (fun e' => decide (k = e'.1)) (hash k) e := by
  set m := buildMap hash pairs (num, den) with hm
  have hperm := buildMap_entries_perm hash pairs num den hnum hden
  have hinv := buildMap_probeInv hash pairs (num, den)
  have hkmem : k ∈ pairs.map Prod.fst :=
    List.count_pos_iff.1 (by omega)
  obtain ⟨kv, hkv, hk1⟩ := List.mem_map.1 hkmem
  have hmem : kv ∈ entries m.slots := hperm.mem_iff.2 hkv
  obtain ⟨j, hj⟩ := stored_of_mem_entries hmem
  obtain ⟨l₁, l₂, hdec, hpre⟩ := hinv j kv hj
  rw [hk1] at hdec
  have hpkv : (fun e' => decide (k = e'.1)) kv = true := by
    simp [hk1]
  obtain ⟨e, he, hpe⟩ :=
    @lookupIdx_hit_weak K V m.slots (fun e' => decide (k = e'.1)) l₁ l₂ j kv
      hpre hj hpkv
  have hsome : m.get_key_value_with hash k (fun a b => decide (a = b)) =
      some e := by
    show lookupIdx m.slots (fun e' => decide (k = e'.1))
        (probeSeq m.capacity (hash k)) = some e
    rw [show m.capacity = m.slots.length from rfl, hdec]
    exact he
  refine ⟨e, hsome, (of_decide_eq_true hpe).symm, ?_⟩
  exact (get_key_value_with_eq_some_iff m hash k _ e).1 hsome

/-- Witness for C7: pairs `[(5, 1), (5, 2), (6, 3)]` repeat key `5`; lookup
of `5` returns a specific first-match entry. -/
theorem duplicate_key_lookup_witness :
    (1 ≤ 1 ∧ 1 ≤ 1 ∧
        2 ≤ (([(5, 1), (5, 2), (6, 3)] : List (Nat × Nat)).map
          Prod.fst).count 5) ∧
      ∃ e, (buildMap id [(5, 1), (5, 2), (6, 3)] (1, 1)).get_key_value id 5 =
          some e ∧ e.1 = 5 ∧
        IsFirstMatch (buildMap id [(5, 1), (5, 2), (6, 3)] (1, 1)).slots
          (fun e' => decide (5 = e'.1)) (id 5) e :=
  ⟨⟨by decide, by decide, by decide⟩,
    duplicate_key_lookup id [(5, 1), (5, 2), (6, 3)] 1 1 5
      (by decide) (by decide) (by decide)⟩

/-! ## Claim C8: lookup-miss semantics -/

/-- C8: Lookup-miss semantics.  For every archived map (well-formed or
corrupted) and every key, lookup either returns the first entry in probe
order satisfying the comparator, or returns `none` because it reached an
empty slot, or returns `none` because all `capacity` probes were spent on
occupied non-matching slots.  A miss is the normal `Option.none` outcome of a
total function — lookup never fails or diverges. -/
theorem get_with_trichotomy (m : ArchivedHashMap K V) (hash : K → Nat)
    (q : K) (cmp : K → K → Bool) :
    (∃ e, m.get_with hash q cmp = some e.2 ∧
        IsFirstMatch m.slots (fun e' => cmp q e'.1) (hash q) e)
    ∨ (m.get_with hash q cmp = none ∧
        ((∃ j l₁ l₂, probeSeq m.capacity (hash q) = l₁ ++ j :: l₂ ∧
            m.slots[j]? = some none ∧
            ∀ i ∈ l₁, ∃ e', m.slots[i]? = some (some e') ∧ cmp q e'.1 = false)
          ∨ (∀ i ∈ probeSeq m.capacity (hash q),
              ∃ e', m.slots[i]? = some (some e') ∧ cmp q e'.1 = false))) := by
  cases hres : m.get_key_value_with hash q cmp with
  | some e =>
    left
    refine ⟨e, ?_, (get_key_value_with_eq_some_iff m hash q cmp e).1 hres⟩
    show (m.get_key_value_with hash q cmp).map Prod.snd = some e.2
    rw [hres]; rfl
  | none =>
    right
    constructor
    · show (m.get_key_value_with hash q cmp).map Prod.snd = none
      rw [hres]; rfl
    · have hlt : ∀ i ∈ probeSeq m.capacity (hash q), i < m.slots.length :=
        fun i hi => probeSeq_mem_lt' hi
      exact lookupIdx_eq_none hlt hres

/-! ## Iteration -/

theorem rawIterFrom_map_snd (i : Nat) (slots : List (Option (K × V))) :
    (rawIterFrom i slots).map Prod.snd = entries slots := by
  induction slots generalizing i with
  | nil => rfl
  | cons o rest ih =>
    cases o with
    | none => simpa [rawIterFrom, entries] using ih (i + 1)
    | some e =>
      simp only [rawIterFrom, List.map_cons]
      rw [ih (i + 1)]
      simp [entries]

theorem rawIterFrom_fst_ge (i : Nat) (slots : List (Option (K × V))) :
    ∀ je ∈ rawIterFrom i slots, i ≤ je.1 := by
  induction slots generalizing i with
  | nil => simp [rawIterFrom]
  | cons o rest ih =>
    cases o with
    | none =>
      intro je hje
      have := ih (i + 1) je hje
      omega
    | some e =>
      intro je hje
      rcases List.mem_cons.1 hje with rfl | hje
      · exact le_refl _
      · have := ih (i + 1) je hje
        omega

theorem rawIterFrom_sorted (i : Nat) (slots : List (Option (K × V))) :
    ((rawIterFrom i slots).map Prod.fst).Pairwise (· < ·) := by
  induction slots generalizing i with
  | nil => simp [rawIterFrom]
  | cons o rest ih =>
    cases o with
    | none => exact ih (i + 1)
    | some e =>
      simp only [rawIterFrom, List.map_cons, List.pairwise_cons]
      refine ⟨?_, ih (i + 1)⟩
      intro x hx
      obtain ⟨je, hje, rfl⟩ := List.mem_map.1 hx
      have := rawIterFrom_fst_ge (i + 1) rest je hje
      omega

theorem rawIterFrom_stored (i : Nat) (slots : List (Option (K × V))) :
    ∀ je ∈ rawIterFrom i slots,
      i ≤ je.1 ∧ slots[je.1 - i]? = some (some je.2) := by
  induction slots generalizing i with
  | nil => simp [rawIterFrom]
  | cons o rest ih =>
    cases o with
    | none =>
      intro je hje
      obtain ⟨hge, hst⟩ := ih (i + 1) je hje
      refine ⟨by omega, ?_⟩
      have : je.1 - i = (je.1 - (i + 1)) + 1 := by omega
      rw [this, List.getElem?_cons_succ]
      exact hst
    | some e =>
      intro je hje
      rcases List.mem_cons.1 hje with rfl | hje
      · simp
      · obtain ⟨hge, hst⟩ := ih (i + 1) je hje
        refine ⟨by omega, ?_⟩
        have : je.1 - i = (je.1 - (i + 1)) + 1 := by omega
        rw [this, List.getElem?_cons_succ]
        exact hst

/-! ## Claim C6: iteration completeness -/

/-- C6: Iteration completeness.  For every built archived map (any load
factor `(num, den)` with `1 ≤ num ≤ den`), one full iteration yields exactly
`length()` entries, the visited bucket indices are strictly ascending (hence
each entry comes from a distinct occupied slot), every yielded entry is the
content of its occupied slot, and iteration is a pure function of the slot
array, so a fresh iteration over the same unmutated map yields the same
sequence. -/
theorem iteration_complete [DecidableEq K] (hash : K → Nat)
    (pairs : List (K × V)) (num den : Nat)
    (hnum : 1 ≤ num) (hden : num ≤ den) :
    ((buildMap hash pairs (num, den)).rawIter).length =
        (buildMap hash pairs (num, den)).length ∧
    (((buildMap hash pairs (num, den)).rawIter).map Prod.fst).Pairwise
        (· < ·) ∧
    (∀ je ∈ (buildMap hash pairs (num, den)).rawIter,
        (buildMap hash pairs (num, den)).slots[je.1]? = some (some je.2)) ∧
    (∀ m₂ : ArchivedHashMap K V,
        m₂.slots = (buildMap hash pairs (num, den)).slots →
        m₂.rawIter = (buildMap hash pairs (num, den)).rawIter) := by
  set m := buildMap hash pairs (num, den) with hm
  have hperm := buildMap_entries_perm hash pairs num den hnum hden
  refine ⟨?_, ?_, ?_, ?_⟩
  · have h1 : (m.rawIter.map Prod.snd).length = (entries m.slots).length := by
      rw [show m.rawIter = rawIterFrom 0 m.slots from rfl, rawIterFrom_map_snd]
    rw [List.length_map] at h1
    rw [h1, hperm.length_eq]
    rfl
  · exact rawIterFrom_sorted 0 m.slots
  · intro je hje
    have := (rawIterFrom_stored 0 m.slots je hje).2
    simpa using this
  · intro m₂ hslots
    unfold ArchivedHashMap.rawIter
    rw [hslots]

/-- Witness for C6 at pairs `[(3, 30), (4, 40)]`, hash = identity, load
factor `(1, 2)`. -/
theorem iteration_complete_witness :
    (1 ≤ 1 ∧ 1 ≤ 2) ∧
      ((buildMap id [(3, 30), (4, 40)] (1, 2)).rawIter).length =
        (buildMap (id : Nat → Nat) [(3, 30), (4, 40)] (1, 2)).length :=
  ⟨⟨by decide, by decide⟩,
    (iteration_complete id [(3, 30), (4, 40)] 1 2 (by decide) (by decide)).1⟩

/-! ## Claim C3: map equality -/

/-- C3: Map equality.  `a == b` holds exactly when `a` and `b` have equal
length and every key-value pair obtained by iterating `a` resolves via `get`
in `b` to a value equal to `a`'s value for that key.  The right-hand side
quantifies over membership in the iteration sequence, so the result does not
depend on the iteration order. -/
theorem beq_iff [DecidableEq K] [DecidableEq V]
    (a b : ArchivedHashMap K V) (hash : K → Nat) :
    a.beq b hash = true ↔
      (a.length = b.length ∧
        ∀ kv ∈ a.iterList, b.get hash kv.1 = some kv.2) := by
  unfold ArchivedHashMap.beq
  by_cases hlen : a.length = b.length
  · rw [if_neg (by simp [hlen])]
    rw [List.all_eq_true]
    constructor
    · intro h
      refine ⟨hlen, ?_⟩
      intro kv hkv
      have := h kv hkv
      cases hg : b.get hash kv.1 with
      | none => rw [hg] at this; simp at this
      | some v =>
        rw [hg] at this
        simp at this
        rw [this]
    · rintro ⟨-, h⟩ kv hkv
      rw [h kv hkv]
      simp
  · rw [if_pos (by simpa using hlen)]
    simp [hlen]

/-! ## Claim C10: indexed access -/

/-- C10: indexed access panics exactly on a miss.  For every archived map `m`
and key `q`, `m[q]` panics (errors) if and only if `get q` returns `none`,
and otherwise returns exactly the value reference `get q` returns. -/
theorem index_panics_iff_miss [DecidableEq K] (m : ArchivedHashMap K V)
    (hash : K → Nat) (q : K) :
    (m.index hash q = Except.error () ↔ m.get hash q = none) ∧
    (∀ v, m.index hash q = Except.ok v ↔ m.get hash q = some v) := by
  unfold ArchivedHashMap.index
  cases hg : m.get hash q with
  | none => simp
  | some v => simp

/-! ## Claim C5: mutation preserves lookup -/

theorem lookupPos_none {slots : List (Option (K × V))} {p : K × V → Bool}
    {l : List Nat} (h : lookupPos slots p l = none) :
    lookupIdx slots p l = none := by
  induction l with
  | nil => rfl
  | cons i rest ih =>
    rw [lookupPos] at h
    split at h
    · rename_i hs
      simp [lookupIdx, hs]
    · rename_i hs
      simp [lookupIdx, hs]
    · rename_i e hs
      split at h
      · exact absurd h (by simp)
      · rename_i hp
        have hpf : p e = false := by simpa using hp
        rw [lookupIdx, hs]
        simp only [hpf, Bool.false_eq_true, if_false]
        exact ih h

theorem lookupPos_some {slots : List (Option (K × V))} {p : K × V → Bool}
    {l : List Nat} {j : Nat} (h : lookupPos slots p l = some j) :
    ∃ e l₁ l₂, l = l₁ ++ j :: l₂ ∧ slots[j]? = some (some e) ∧ p e = true ∧
      lookupIdx slots p l = some e ∧
      ∀ i ∈ l₁, ∃ e', slots[i]? = some (some e') ∧ p e' = false := by
  induction l with
  | nil => simp [lookupPos] at h
  | cons i rest ih =>
    rw [lookupPos] at h
    split at h
    · exact absurd h (by simp)
    · exact absurd h (by simp)
    · rename_i e hs
      split at h
      · rename_i hp
        obtain rfl : i = j := Option.some.inj h
        exact ⟨e, [], rest, rfl, hs, hp, by
          rw [lookupIdx, hs]
          simp [hp], by simp⟩
      · rename_i hp
        obtain ⟨e', l₁, l₂, rfl, hj, hpe', hlook, hpre⟩ := ih h
        refine ⟨e', i :: l₁, l₂, rfl, hj, hpe', ?_, ?_⟩
        · rw [lookupIdx, hs]
          have hpf : p e = false := by simpa using hp
          simp only [hpf, Bool.false_eq_true, if_false]
          exact hlook
        · intro x hx
          rcases List.mem_cons.1 hx with rfl | hx
          · exact ⟨e, hs, by simpa using hp⟩
          · exact hpre x hx

theorem lookupPos_isSome_of_lookupIdx {slots : List (Option (K × V))}
    {p : K × V → Bool} {l : List Nat} {e : K × V}
    (h : lookupIdx slots p l = some e) :
    ∃ j : Nat, lookupPos slots p l = some j := by
  cases hp : lookupPos slots p l with
  | none => rw [lookupPos_none hp] at h; exact absurd h (by simp)
  | some j => exact ⟨j, rfl⟩

theorem lookupIdx_key_congr {slots₁ slots₂ : List (Option (K × V))}
    {c : K → Bool} (hkeys : SameKeys slots₁ slots₂) (l : List Nat) :
    (lookupIdx slots₁ (fun e => c e.1) l).map Prod.fst =
      (lookupIdx slots₂ (fun e => c e.1) l).map Prod.fst ∧
    (lookupIdx slots₁ (fun e => c e.1) l).isSome =
      (lookupIdx slots₂ (fun e => c e.1) l).isSome := by
  induction l with
  | nil => exact ⟨rfl, rfl⟩
  | cons i rest ih =>
    have hk := hkeys i
    rw [lookupIdx, lookupIdx]
    cases h1 : slots₁[i]? with
    | none =>
      rw [h1] at hk
      cases h2 : slots₂[i]? with
      | none => exact ⟨rfl, rfl⟩
      | some o => rw [h2] at hk; exact absurd hk (by simp)
    | some o₁ =>
      rw [h1] at hk
      cases h2 : slots₂[i]? with
      | none => rw [h2] at hk; exact absurd hk (by simp)
      | some o₂ =>
        rw [h2] at hk
        cases o₁ with
        | none =>
          cases o₂ with
          | none => exact ⟨rfl, rfl⟩
          | some e₂ => exact absurd hk (by simp)
        | some e₁ =>
          cases o₂ with
          | none => exact absurd hk (by simp)
          | some e₂ =>
            have hfst : e₁.1 = e₂.1 := by simpa using hk
            simp only
            rw [hfst]
            by_cases hc : c e₂.1
            · rw [if_pos hc, if_pos hc]
              exact ⟨by simpa using hfst, rfl⟩
            · rw [if_neg hc, if_neg hc]
              exact ih

theorem set_value_mut_sameKeys [DecidableEq K] (m : ArchivedHashMap K V)
    (hash : K → Nat) (q : K) (newv : V) :
    SameKeys ((m.set_value_mut hash q newv).slots) m.slots := by
  unfold ArchivedHashMap.set_value_mut
  split
  · rename_i i hfind
    split
    · rename_i e hs
      intro x
      simp only
      rcases eq_or_ne i x with rfl | hne
      · have hlt : i < m.slots.length := by
          by_contra hge
          rw [List.getElem?_eq_none (Nat.le_of_not_lt hge)] at hs
          exact absurd hs (by simp)
        rw [List.getElem?_set_self hlt, hs]
        simp
      · rw [List.getElem?_set_ne hne]
    · intro x; rfl
  · intro x; rfl

/-- C5: Mutation preserves lookup.  Writing a new value through the
mutable-access path changes only the value component of the matched slot
(the key is never exposed for mutation), the capacity and stored length are
unchanged, every subsequent lookup of any key finds the same slot key (or
still misses), and the mutated key itself still resolves — now to the new
value. -/
theorem mutation_preserves_lookup [DecidableEq K] (m : ArchivedHashMap K V)
    (hash : K → Nat) (q : K) (newv : V) :
    SameKeys ((m.set_value_mut hash q newv).slots) m.slots ∧
    (m.set_value_mut hash q newv).capacity = m.capacity ∧
    (m.set_value_mut hash q newv).len = m.len ∧
    (∀ q' : K,
      ((m.set_value_mut hash q newv).get_key_value hash q').map Prod.fst =
        (m.get_key_value hash q').map Prod.fst ∧
      ((m.set_value_mut hash q newv).get_key_value hash q').isSome =
        (m.get_key_value hash q').isSome) ∧
    (∀ v, m.get hash q = some v →
      (m.set_value_mut hash q newv).get hash q = some newv) := by
  have hkeys := set_value_mut_sameKeys m hash q newv
  have hcap : (m.set_value_mut hash q newv).capacity = m.capacity := by
    unfold ArchivedHashMap.set_value_mut ArchivedHashMap.capacity
    split
    · split
      · exact List.length_set ..
      · rfl
    · rfl
  have hlen : (m.set_value_mut hash q newv).len = m.len := by
    unfold ArchivedHashMap.set_value_mut
    split
    · split
      · rfl
      · rfl
    · rfl
  refine ⟨hkeys, hcap, hlen, ?_, ?_⟩
  · intro q'
    have hkc := lookupIdx_key_congr (c := fun k => decide (q' = k)) hkeys
      (probeSeq m.capacity (hash q'))
    have hgv : (m.set_value_mut hash q newv).get_key_value hash q' =
        lookupIdx (m.set_value_mut hash q newv).slots
          (fun e => decide (q' = e.1)) (probeSeq m.capacity (hash q')) := by
      unfold ArchivedHashMap.get_key_value ArchivedHashMap.get_key_value_with
      rw [hcap]
    have hgv2 : m.get_key_value hash q' =
        lookupIdx m.slots (fun e => decide (q' = e.1))
          (probeSeq m.capacity (hash q')) := rfl
    rw [hgv, hgv2]
    exact hkc
  · intro v hv
    have hv' : (lookupIdx m.slots (fun e => decide (q = e.1))
        (probeSeq m.capacity (hash q))).map Prod.snd = some v := hv
    cases hgkv : lookupIdx m.slots (fun e => decide (q = e.1))
        (probeSeq m.capacity (hash q)) with
    | none => rw [hgkv] at hv'; exact absurd hv' (by simp)
    | some e =>
      obtain ⟨j, hpos⟩ := lookupPos_isSome_of_lookupIdx hgkv
      obtain ⟨e₀, l₁, l₂, hdec, hj, hpe₀, hlook, hpre⟩ := lookupPos_some hpos
      have hm' : (m.set_value_mut hash q newv).slots =
          m.slots.set j (some (e₀.1, newv)) := by
        unfold ArchivedHashMap.set_value_mut
        rw [hpos]
        simp [hj]
      have hjlt : j < m.slots.length := by
        by_contra hge
        rw [List.getElem?_eq_none (Nat.le_of_not_lt hge)] at hj
        exact absurd hj (by simp)
      have hjnotin : j ∉ l₁ := by
        have hnodup := probeSeq_nodup m.capacity (hash q)
        rw [hdec] at hnodup
        intro hmem'
        exact (List.nodup_append.1 hnodup).2.2 hmem' (List.mem_cons_self j l₂)
      have hpre' : ∀ i ∈ l₁, ∃ e', (m.slots.set j (some (e₀.1, newv)))[i]? =
          some (some e') ∧ decide (q = e'.1) = false := by
        intro i hi
        obtain ⟨e', he', hpef⟩ := hpre i hi
        refine ⟨e', ?_, hpef⟩
        have hne : j ≠ i := fun hji => hjnotin (by rw [hji]; exact hi)
        rw [List.getElem?_set_ne hne, he']
      have hjnew : (m.slots.set j (some (e₀.1, newv)))[j]? =
          some (some (e₀.1, newv)) := List.getElem?_set_self hjlt
      have hpnew : decide (q = (e₀.1, newv).1) = true := hpe₀
      show ((m.set_value_mut hash q newv).get_key_value hash q).map Prod.snd =
        some newv
      have hfin : (m.set_value_mut hash q newv).get_key_value hash q =
          lookupIdx (m.set_value_mut hash q newv).slots
            (fun e' => decide (q = e'.1)) (probeSeq m.capacity (hash q)) := by
        unfold ArchivedHashMap.get_key_value ArchivedHashMap.get_key_value_with
        rw [hcap]
      rw [hfin, hm', hdec, lookupIdx_hit hpre' hjnew hpnew]
      rfl

/-- Witness for C5: in the map built from `[(1, 10), (2, 20)]`, mutating the
value of key `1` to `99` preserves the lookup outcome and the mutated key
resolves to the new value. -/
theorem mutation_preserves_lookup_witness :
    ((buildMap id [(1, 10), (2, 20)] (1, 1)).get id 1 = some 10) ∧
    (((buildMap id [(1, 10), (2, 20)] (1, 1)).set_value_mut id 1 99).get id 1 =
      some 99) :=
  ⟨by decide,
    (mutation_preserves_lookup (buildMap id [(1, 10), (2, 20)] (1, 1))
      id 1 99).2.2.2.2 10 (by decide)⟩

/-! ## The arena cache (`src/rkyv/src/util/alloc/mod.rs`) -/

/-! ## Claim C4: with_arena -/

/-- C4: `with_arena(f)` invokes `f` exactly once, on the single arena taken
from the cache (or a fresh one), and returns `f`'s result unchanged; the
arena `f` used is shrunk before the caching decision, and the arena left in
the cache is either that shrunk arena or one that was concurrently (or
re-entrantly) placed in the cache — never the unshrunk working arena.  This
holds for both the thread-local (std) and shared-global (no_std) variants. -/
theorem with_arena_spec (cell cellAfter global interference : Option Arena)
    (f : Arena → T × Arena) :
    (with_arena_std cell cellAfter f).1 = (f (cell.getD Arena.new)).1 ∧
    (∃ kept, (with_arena_std cell cellAfter f).2 = some kept ∧
      (kept = ((f (cell.getD Arena.new)).2.shrink).1 ∨
        cellAfter = some kept)) ∧
    (with_arena_no_std global interference f).1 =
      (f (global.getD Arena.new)).1 ∧
    (∃ kept, (with_arena_no_std global interference f).2 = some kept ∧
      (kept = ((f (global.getD Arena.new)).2.shrink).1 ∨
        interference = some kept)) := by
  refine ⟨rfl, ?_, ?_, ?_⟩
  · unfold with_arena_std
    cases cellAfter with
    | none => exact ⟨_, rfl, Or.inl rfl⟩
    | some other =>
      simp only
      split
      · exact ⟨other, rfl, Or.inr rfl⟩
      · exact ⟨_, rfl, Or.inl rfl⟩
  · unfold with_arena_no_std
    cases interference with
    | none => rfl
    | some other => rfl
  · unfold with_arena_no_std
    cases interference with
    | none => exact ⟨_, rfl, Or.inl rfl⟩
    | some other => exact ⟨other, rfl, Or.inr rfl⟩

/-! ## Claim C9: clear_arena -/

/-- C9: `clear_arena()` is total and safe in every cache state: after it
returns the cache slot holds no arena, any previously cached arena has been
freed (it is exactly the list of dropped arenas), and calling it on an empty
cache succeeds as a no-op that frees nothing. -/
theorem clear_arena_spec (cache : Option Arena) :
    (clear_arena cache).1 = none ∧
    (clear_arena cache).2 = cache.toList ∧
    clear_arena none = (none, []) := by
  refine ⟨?_, ?_, rfl⟩
  · cases cache with
    | none => rfl
    | some a => rfl
  · cases cache with
    | none => rfl
    | some a => rfl

end Rkyv
